import Mathlib

/-!
Verification of the PDF outline extractor of the `ndt` document hub
(`server/app/pdf_parser.py` and the figure-resolution step of
`upload_document` in `server/app/main.py`).

The Python code is shallowly embedded: page texts are plain strings,
`PdfReader` is modelled as an `Option` (a file that cannot be opened
yields `none`), and the two regular expressions of the parser are
translated into executable character-list matchers over the ASCII
fragment the parser is used on.
-/

namespace Ndt

/-! ## Character classes (Python `str.isspace`, regex `\s`, `\d`, `\w`) -/

/-- Python `str.isspace` / regex `\s` membership, by code point. -/
def pyIsSpace (c : Char) : Bool :=
  decide (c.toNat = 32 ∨ (9 ≤ c.toNat ∧ c.toNat ≤ 13) ∨ (28 ≤ c.toNat ∧ c.toNat ≤ 31) ∨
    c.toNat = 133 ∨ c.toNat = 160 ∨ c.toNat = 5760 ∨
    (8192 ≤ c.toNat ∧ c.toNat ≤ 8202) ∨ c.toNat = 8232 ∨ c.toNat = 8233 ∨
    c.toNat = 8239 ∨ c.toNat = 8287 ∨ c.toNat = 12288)

/-- Line boundaries recognised by Python `str.splitlines` (besides `"\r\n"`). -/
def isLineBreak (c : Char) : Bool :=
  decide (c.toNat = 10 ∨ c.toNat = 11 ∨ c.toNat = 12 ∨ c.toNat = 13 ∨
    c.toNat = 28 ∨ c.toNat = 29 ∨ c.toNat = 30 ∨ c.toNat = 133 ∨
    c.toNat = 8232 ∨ c.toNat = 8233)

/-- Regex `\d`: a decimal digit `'0'..'9'`. -/
def isDigitC (c : Char) : Bool :=
  decide (48 ≤ c.toNat ∧ c.toNat ≤ 57)

/-- Regex `\w`: a letter, digit or underscore. -/
def isWordChar (c : Char) : Bool :=
  decide ((48 ≤ c.toNat ∧ c.toNat ≤ 57) ∨ (65 ≤ c.toNat ∧ c.toNat ≤ 90) ∨
    (97 ≤ c.toNat ∧ c.toNat ≤ 122) ∨ c.toNat = 95)

/-- Code point after ASCII lower-casing; `re.IGNORECASE` compares through this. -/
def lowerNat (c : Char) : Nat :=
  if 65 ≤ c.toNat ∧ c.toNat ≤ 90 then c.toNat + 32 else c.toNat

/-! ## Python string helpers -/

/-- Python `str.strip()`: drop leading and trailing whitespace. -/
def pyStrip (s : String) : String :=
  ⟨((s.data.dropWhile pyIsSpace).reverse.dropWhile pyIsSpace).reverse⟩

/-- Worker for `pySplitlines`; `acc` holds the current line reversed. -/
def pySplitlinesAux : List Char → List Char → List String
  | [], acc => if acc.isEmpty then [] else [⟨acc.reverse⟩]
  | '\r' :: '\n' :: rest, acc => ⟨acc.reverse⟩ :: pySplitlinesAux rest []
  | c :: rest, acc =>
    if isLineBreak c then ⟨acc.reverse⟩ :: pySplitlinesAux rest []
    else pySplitlinesAux rest (c :: acc)

/-- Python `str.splitlines()`. -/
def pySplitlines (s : String) : List String :=
  pySplitlinesAux s.data []

/-! ## The heading regex `^(\d+(?:\.\d+)*)\s+(.+)$` (applied by `re.match`)

The pattern is translated into a deterministic scanner.  `dotPlusEnd`
covers `(.+)$` (`.` never matches `'\n'`; `$` also accepts one final
newline), `wsOrRest` covers the tail after at least one `\s` has been
read, and `inDigits` covers the tail after at least one digit of the
current integer group has been read. -/

/-- `(.+)$`: at least one non-newline character, then the end of the
string or a single final newline. -/
def dotPlusEnd (cs : List Char) : Bool :=
  let core := cs.takeWhile (fun c => !(c == '\n'))
  !core.isEmpty && ((cs.drop core.length).isEmpty || cs.drop core.length == ['\n'])

/-- Remaining input after `\d+(?:\.\d+)*\s`: either the `(.+)$` part
starts here, or one more `\s` is consumed. -/
def wsOrRest : List Char → Bool
  | [] => false
  | c :: rest => dotPlusEnd (c :: rest) || (pyIsSpace c && wsOrRest rest)

/-- Remaining input after at least one digit of the current group of
`\d+(?:\.\d+)*`: more digits, a dot starting the next group (which must
open with a digit), or the `\s+` separator. -/
def inDigits : List Char → Bool
  | [] => false
  | [c] =>
    if isDigitC c then inDigits []
    else if c == '.' then false
    else if pyIsSpace c then wsOrRest []
    else false
  | c :: d :: rest2 =>
    if isDigitC c then inDigits (d :: rest2)
    else if c == '.' then isDigitC d && inDigits rest2
    else if pyIsSpace c then wsOrRest (d :: rest2)
    else false

/-- `re.match(r"^(\d+(?:\.\d+)*)\s+(.+)$", s)` succeeds. -/
def headingMatch (s : String) : Bool :=
  match s.data with
  | [] => false
  | c :: rest => isDigitC c && inDigits rest

/-! ## The figure regex `re.search(r"\b(Figure|Fig\.)\b", line, re.IGNORECASE)` -/

/-- Whether position `i` of the character list holds a word character
(out-of-range positions count as non-word, as at Python string ends). -/
def wordAt (cs : List Char) (i : Nat) : Bool :=
  match cs[i]? with
  | some c => isWordChar c
  | none => false

/-- Regex `\b` at position `i`: exactly one of the two neighbouring
positions holds a word character. -/
def boundaryAt (cs : List Char) (i : Nat) : Bool :=
  (match i with
   | 0 => false
   | Nat.succ j => wordAt cs j) != wordAt cs i

/-- Case-insensitive prefix test: `pat` matches the start of `cs` up to
ASCII case. -/
def ciPrefix : List Char → List Char → Bool
  | [], _ => true
  | _ :: _, [] => false
  | p :: ps, c :: cs => (lowerNat c == lowerNat p) && ciPrefix ps cs

/-- The alternation `\b(Figure|Fig\.)\b` matches at position `i`. -/
def figMatchAt (cs : List Char) (i : Nat) : Bool :=
  boundaryAt cs i &&
    ((ciPrefix "figure".data (cs.drop i) && boundaryAt cs (i + 6)) ||
     (ciPrefix "fig.".data (cs.drop i) && boundaryAt cs (i + 4)))

/-- `re.search(r"\b(Figure|Fig\.)\b", s, re.IGNORECASE)` succeeds:
the alternation matches at some position of `s`. -/
def figSearch (s : String) : Bool :=
  (List.range (s.data.length + 1)).any (fun i => figMatchAt s.data i)

/-! ## The parser data model (`pdf_parser.py`) -/

/-- Dataclass `ParsedSection`. -/
structure ParsedSection where
  heading_text : String
  heading_level : String
  page_start : Option Nat
  page_end : Option Nat
  order_index : Nat
deriving DecidableEq

/-- Dataclass `ParsedFigure`. -/
structure ParsedFigure where
  section_index : Option Nat
  page_number : Option Nat
  caption_text : Option String
  order_index : Nat
deriving DecidableEq

/-- `_detect_sections`: collect the stripped text of every line whose
stripped text matches the heading pattern. -/
def detect_sections (text_lines : List String) : List String :=
  text_lines.filterMap fun line =>
    if headingMatch (pyStrip line) then some (pyStrip line) else none

/-- The mutable state of `parse_pdf`'s page loop: the `sections` and
`figures` lists and the running `order_index` counter. -/
structure PState where
  sections : List ParsedSection
  figures : List ParsedFigure
  order_index : Nat
deriving DecidableEq

/-- `page.extract_text() or ""`, split into lines, keeping only lines
that are non-blank after stripping. -/
def pageLines (text : Option String) : List String :=
  (pySplitlines (text.getD "")).filter (fun l => pyStrip l != "")

/-- The body of `for heading in headings`: append a `ParsedSection` for
the current page and advance the counter. -/
def addHeading (page_index : Nat) (st : PState) (heading : String) : PState :=
  { st with
    sections := st.sections ++
      [{ heading_text := heading, heading_level := "H1",
         page_start := some page_index, page_end := some page_index,
         order_index := st.order_index }],
    order_index := st.order_index + 1 }

/-- The body of `for line in lines`: if the figure regex matches, append
a `ParsedFigure` pointing at the last section detected so far. -/
def addFigLine (page_index : Nat) (st : PState) (line : String) : PState :=
  if figSearch line then
    { st with
      figures := st.figures ++
        [{ section_index :=
             if st.sections.isEmpty then none else some (st.sections.length - 1),
           page_number := some page_index,
           caption_text := some (pyStrip line),
           order_index := st.figures.length + 1 }] }
  else st

/-- One iteration of the page loop: detect the page's headings first,
then scan every non-blank line of the page for figure captions. -/
def processPage (page_index : Nat) (text : Option String) (st : PState) : PState :=
  let lines := pageLines text
  let st1 := (detect_sections lines).foldl (addHeading page_index) st
  lines.foldl (addFigLine page_index) st1

/-- Initial loop state: empty lists, counter at 1. -/
def initState : PState := ⟨[], [], 1⟩

/-- `for page_index, page in enumerate(reader.pages, start=1)`. -/
def runPages : Nat → List (Option String) → PState → PState
  | _, [], st => st
  | i, t :: ts, st => runPages (i + 1) ts (processPage i t st)

/-- A readable PDF: its pages, each with the text `extract_text`
returns (`none` when extraction yields nothing). -/
structure Pdf where
  pages : List (Option String)

/-- The section synthesised when no heading was detected anywhere. -/
def fallbackSection (total_pages : Nat) : ParsedSection :=
  { heading_text := "Document Overview", heading_level := "H1",
    page_start := some 1, page_end := some total_pages, order_index := 1 }

/-- `parse_pdf`: `none` models a file `PdfReader` cannot open, in which
case the function raises before producing anything. -/
def parse_pdf (file : Option Pdf) :
    Except Unit (List ParsedSection × List ParsedFigure) :=
  match file with
  | none => .error ()
  | some pdf =>
    let st := runPages 1 pdf.pages initState
    let sections :=
      if st.sections.isEmpty then [fallbackSection pdf.pages.length] else st.sections
    .ok (sections, st.figures)

/-! ## The persistence boundary of `upload_document` (`main.py`) -/

/-- Database state touched by an upload, as row counts. -/
structure Db where
  documents : Nat
  sectionRows : Nat
  figureRows : Nat
deriving DecidableEq

/-- The in-range guard of `upload_document`: a parsed figure's pending
section index is resolved to the just-persisted section's identity
(modelled by its position) only when it indexes into the section list. -/
def resolveSectionId (section_count : Nat) (f : ParsedFigure) : Option Nat :=
  match f.section_index with
  | some i => if i < section_count then some i else none
  | none => none

/-- Resolution of every figure's section reference against the persisted
section list. -/
def resolve_figures (secs : List ParsedSection) (figs : List ParsedFigure) :
    List (Option Nat) :=
  figs.map (resolveSectionId secs.length)

/-- `upload_document` after the file has been stored: parse first; only
on success create the document row and bulk-insert sections and figures.
A parse failure propagates and nothing is committed. -/
def upload_document (db : Db) (file : Option Pdf) : Except Unit Db :=
  match parse_pdf file with
  | .error e => .error e
  | .ok (secs, figs) =>
    .ok { documents := db.documents + 1,
          sectionRows := db.sectionRows + secs.length,
          figureRows := db.figureRows + (resolve_figures secs figs).length }

/-! ## Closed forms of the two per-page folds -/

/-- The sections one page run appends: one per detected heading, pages
fixed to `page_index`, order indices counting on from `oi`. -/
def mkSections (page_index oi : Nat) : List String → List ParsedSection
  | [] => []
  | h :: hs =>
    { heading_text := h, heading_level := "H1", page_start := some page_index,
      page_end := some page_index, order_index := oi } ::
      mkSections page_index (oi + 1) hs

/-- The figures one page run appends: one per line matched by the figure
regex, all pointing at the last of the `secLen` sections known while the
page's lines are scanned. -/
def mkFigures (page_index secLen figLen : Nat) : List String → List ParsedFigure
  | [] => []
  | l :: ls =>
    if figSearch l then
      { section_index := if secLen = 0 then none else some (secLen - 1),
        page_number := some page_index, caption_text := some (pyStrip l),
        order_index := figLen + 1 } :: mkFigures page_index secLen (figLen + 1) ls
    else mkFigures page_index secLen figLen ls

/-- Number of headings the detector finds on a page. -/
def numHeadings (text : Option String) : Nat :=
  (detect_sections (pageLines text)).length

/-- Number of figure-caption lines the detector finds on a page. -/
def numFigLines (text : Option String) : Nat :=
  (pageLines text).countP (fun l => figSearch l)

/-! ## Spec-side predicates (from the specification's words) -/

/-- A non-empty run of decimal digits. -/
def IsDigitGroup (g : List Char) : Prop :=
  g ≠ [] ∧ ∀ c ∈ g, isDigitC c = true

/-- Modelled from the spec: a line's full trimmed content is "one or
more dot-separated integer groups, followed by whitespace, followed by
one or more remaining characters". -/
def HeadingSpec (s : String) : Prop :=
  ∃ (g0 : List Char) (gs : List (List Char)) (ws rest : List Char),
    IsDigitGroup g0 ∧ (∀ g ∈ gs, IsDigitGroup g) ∧
    ws ≠ [] ∧ (∀ c ∈ ws, pyIsSpace c = true) ∧ rest ≠ [] ∧
    s.data = g0 ++ (gs.map (fun g => '.' :: g)).flatten ++ ws ++ rest

/-- The line contains, at a position not preceded by a word character,
either the whole word `Figure` (case-insensitively; not followed by a
word character) or the token `Fig.` whose period is immediately followed
by a word character. -/
def FigSpec (s : String) : Prop :=
  ∃ pre tok post : List Char,
    s.data = pre ++ tok ++ post ∧
    (∀ c, pre.getLast? = some c → isWordChar c = false) ∧
    ((tok.map lowerNat = "figure".data.map lowerNat ∧
        (∀ c, post.head? = some c → isWordChar c = false)) ∨
     (tok.map lowerNat = "fig.".data.map lowerNat ∧
        (∃ c, post.head? = some c ∧ isWordChar c = true)))

/-- How many of the sections lie on pages up to `p`. -/
def countLe (secs : List ParsedSection) (p : Nat) : Nat :=
  secs.countP fun s =>
    match s.page_start with
    | some q => decide (q ≤ p)
    | none => false

/-- Position of the most recently detected section once every page up to
`p` has been scanned (`none` when no section exists yet). -/
def secIdxAt (secs : List ParsedSection) (p : Nat) : Option Nat :=
  if countLe secs p = 0 then none else some (countLe secs p - 1)

/-- Invariant of the page loop before page `i` is processed: every
recorded page number is an earlier page, section pages are nondecreasing
in detection order, and every figure points at the most recently
detected section of its page. -/
def PagedOk (i : Nat) (st : PState) : Prop :=
  (∀ s ∈ st.sections, ∃ q, s.page_start = some q ∧ q < i) ∧
  (st.sections.map (fun s => s.page_start.getD 0)).Pairwise (· ≤ ·) ∧
  (∀ f ∈ st.figures, ∃ p, f.page_number = some p ∧ p < i ∧
      f.section_index = secIdxAt st.sections p)

/-- Both `order_index` sequences are 1-based ranges and the section
counter stays one ahead of the section count. -/
def GoodIdx (st : PState) : Prop :=
  st.order_index = st.sections.length + 1 ∧
  st.sections.map (·.order_index) = List.range' 1 st.sections.length ∧
  st.figures.map (·.order_index) = List.range' 1 st.figures.length

/-! ## Closed-form lemmas for the page loop -/

theorem isEmpty_eq_decide_length (l : List α) :
    l.isEmpty = decide (l.length = 0) := by
  cases l <;> simp

theorem foldl_addHeading_eq (i : Nat) (hs : List String) (st : PState) :
    hs.foldl (addHeading i) st =
      ⟨st.sections ++ mkSections i st.order_index hs, st.figures,
        st.order_index + hs.length⟩ := by
  induction hs generalizing st with
  | nil => simp [mkSections]
  | cons h hs ih =>
    rw [List.foldl_cons, ih]
    simp only [addHeading, mkSections, PState.mk.injEq]
    refine ⟨by simp, trivial, by simp; omega⟩

theorem mkSections_length (i oi : Nat) (hs : List String) :
    (mkSections i oi hs).length = hs.length := by
  induction hs generalizing oi with
  | nil => rfl
  | cons h hs ih => simp [mkSections, ih]

theorem foldl_addFigLine_eq (i : Nat) (ls : List String) (st : PState) :
    ls.foldl (addFigLine i) st =
      ⟨st.sections,
        st.figures ++ mkFigures i st.sections.length st.figures.length ls,
        st.order_index⟩ := by
  induction ls generalizing st with
  | nil => simp [mkFigures]
  | cons l ls ih =>
    simp only [List.foldl_cons, addFigLine, mkFigures,
      isEmpty_eq_decide_length]
    by_cases hfig : figSearch l = true
    · simp only [hfig, if_true, ih]
      simp only [List.length_append, List.length_cons, List.length_nil]
      refine congrArg (PState.mk st.sections · st.order_index) ?_
      by_cases hz : st.sections.length = 0 <;>
        simp [hz, List.append_assoc, mkFigures]
    · simp only [Bool.not_eq_true] at hfig
      simp [hfig, ih]

theorem processPage_eq (i : Nat) (t : Option String) (st : PState) :
    processPage i t st =
      ⟨st.sections ++ mkSections i st.order_index (detect_sections (pageLines t)),
        st.figures ++
          mkFigures i (st.sections.length + numHeadings t) st.figures.length
            (pageLines t),
        st.order_index + numHeadings t⟩ := by
  simp only [processPage]
  rw [foldl_addHeading_eq, foldl_addFigLine_eq]
  simp [mkSections_length, numHeadings]

theorem mkSections_map_order (i oi : Nat) (hs : List String) :
    (mkSections i oi hs).map (·.order_index) = List.range' oi hs.length := by
  induction hs generalizing oi with
  | nil => rfl
  | cons h hs ih => simp [mkSections, ih, List.range']

theorem mkSections_map_text (i oi : Nat) (hs : List String) :
    (mkSections i oi hs).map (·.heading_text) = hs := by
  induction hs generalizing oi with
  | nil => rfl
  | cons h hs ih => simp [mkSections, ih]

theorem mkSections_mem (i oi : Nat) (hs : List String) :
    ∀ s ∈ mkSections i oi hs,
      s.heading_level = "H1" ∧ s.page_start = some i ∧ s.page_end = some i := by
  induction hs generalizing oi with
  | nil => intro s h; cases h
  | cons h hs ih =>
    intro s hmem
    rcases hmem with _ | ⟨_, hmem⟩
    · exact ⟨rfl, rfl, rfl⟩
    · exact ih (oi + 1) s hmem

theorem mkFigures_length (i sl fl : Nat) (ls : List String) :
    (mkFigures i sl fl ls).length = ls.countP (fun l => figSearch l) := by
  induction ls generalizing fl with
  | nil => rfl
  | cons l ls ih =>
    by_cases hfig : figSearch l = true <;>
      simp [mkFigures, List.countP_cons, hfig, ih]

theorem mkFigures_map_order (i sl fl : Nat) (ls : List String) :
    (mkFigures i sl fl ls).map (·.order_index) =
      List.range' (fl + 1) (ls.countP (fun l => figSearch l)) := by
  induction ls generalizing fl with
  | nil => rfl
  | cons l ls ih =>
    by_cases hfig : figSearch l = true <;>
      simp [mkFigures, List.countP_cons, hfig, ih, List.range']

theorem mkFigures_mem (i sl fl : Nat) (ls : List String) :
    ∀ f ∈ mkFigures i sl fl ls,
      f.section_index = (if sl = 0 then none else some (sl - 1)) ∧
        f.page_number = some i := by
  induction ls generalizing fl with
  | nil => intro f h; cases h
  | cons l ls ih =>
    intro f hmem
    by_cases hfig : figSearch l = true
    · simp only [mkFigures, hfig, if_true] at hmem
      rcases hmem with _ | ⟨_, hmem⟩
      · exact ⟨rfl, rfl⟩
      · exact ih (fl + 1) f hmem
    · simp only [mkFigures, hfig, if_false, Bool.false_eq_true] at hmem
      exact ih fl f hmem

theorem runPages_nil (i : Nat) (st : PState) : runPages i [] st = st := rfl

theorem runPages_cons (i : Nat) (t : Option String) (ts : List (Option String))
    (st : PState) :
    runPages i (t :: ts) st = runPages (i + 1) ts (processPage i t st) := rfl

theorem processPage_goodIdx (i : Nat) (t : Option String) (st : PState)
    (h : GoodIdx st) : GoodIdx (processPage i t st) := by
  obtain ⟨h1, h2, h3⟩ := h
  rw [processPage_eq]
  refine ⟨?_, ?_, ?_⟩
  · simp [mkSections_length, numHeadings]; omega
  · simp only [List.map_append, h2, mkSections_map_order, h1,
      List.length_append, mkSections_length, numHeadings]
    have := List.range'_append_1 1 st.sections.length
      (detect_sections (pageLines t)).length
    simpa [Nat.add_comm] using this
  · simp only [List.map_append, h3, mkFigures_map_order,
      List.length_append, mkFigures_length]
    have := List.range'_append_1 1 st.figures.length
      ((pageLines t).countP (fun l => figSearch l))
    simpa [Nat.add_comm] using this

theorem runPages_goodIdx :
    ∀ (ts : List (Option String)) (i : Nat) (st : PState),
      GoodIdx st → GoodIdx (runPages i ts st)
  | [], _, _, h => h
  | t :: ts, i, st, h =>
    runPages_goodIdx ts (i + 1) (processPage i t st) (processPage_goodIdx i t st h)

theorem runPages_sections_length :
    ∀ (ts : List (Option String)) (i : Nat) (st : PState),
      (runPages i ts st).sections.length =
        st.sections.length + (ts.map numHeadings).sum := by
  intro ts
  induction ts with
  | nil => intro i st; simp [runPages_nil]
  | cons t ts ih =>
    intro i st
    rw [runPages_cons, ih, processPage_eq]
    simp [mkSections_length, numHeadings]
    omega

theorem runPages_figures_length :
    ∀ (ts : List (Option String)) (i : Nat) (st : PState),
      (runPages i ts st).figures.length =
        st.figures.length + (ts.map numFigLines).sum := by
  intro ts
  induction ts with
  | nil => intro i st; simp [runPages_nil]
  | cons t ts ih =>
    intro i st
    rw [runPages_cons, ih, processPage_eq]
    simp [mkFigures_length, numFigLines]
    omega

theorem goodIdx_init : GoodIdx initState := ⟨rfl, rfl, rfl⟩

/-- Both output `order_index` sequences of `parse_pdf` are exactly
`1, 2, …, length`. -/
theorem parse_pdf_ranges (pdf : Pdf) (secs : List ParsedSection)
    (figs : List ParsedFigure)
    (h : parse_pdf (some pdf) = .ok (secs, figs)) :
    secs.map (·.order_index) = List.range' 1 secs.length ∧
      figs.map (·.order_index) = List.range' 1 figs.length := by
  have hg := runPages_goodIdx pdf.pages 1 initState goodIdx_init
  simp only [parse_pdf, Except.ok.injEq, Prod.mk.injEq] at h
  obtain ⟨hsec, hfig⟩ := h
  obtain ⟨-, h2, h3⟩ := hg
  subst hfig
  constructor
  · by_cases hempty : (runPages 1 pdf.pages initState).sections.isEmpty = true
    · rw [← hsec]
      simp [hempty, fallbackSection, List.range']
    · rw [← hsec]
      simp only [hempty, if_false, Bool.false_eq_true]
      exact h2
  · exact h3

theorem runPages_figs_inRange :
    ∀ (ts : List (Option String)) (i : Nat) (st : PState),
      (∀ f ∈ st.figures, ∀ j, f.section_index = some j → j < st.sections.length) →
      ∀ f ∈ (runPages i ts st).figures, ∀ j, f.section_index = some j →
        j < (runPages i ts st).sections.length := by
  intro ts
  induction ts with
  | nil => intro i st h; exact h
  | cons t ts ih =>
    intro i st h
    rw [runPages_cons]
    refine ih (i + 1) (processPage i t st) ?_
    intro f hf j hj
    rw [processPage_eq] at hf ⊢
    simp only [List.length_append, mkSections_length]
    simp only [List.mem_append] at hf
    rcases hf with hf | hf
    · have := h f hf j hj
      omega
    · have := (mkFigures_mem _ _ _ _ f hf).1
      rw [this] at hj
      by_cases hz : st.sections.length + numHeadings t = 0
      · simp [hz] at hj
      · simp only [hz, if_false] at hj
        have := Option.some.inj hj
        simp only [numHeadings] at this hz
        omega

/-! ## Claim theorems -/

/-- Claim C5: every section a page run appends records that page as both
`page_start` and `page_end` and carries verbatim the detected heading
texts; and in the whole-document scan the k-th detected section's
`order_index` is `k + 1`, the 1-based running count of sections across
the document. -/
theorem C5_section_pages_and_running_count :
    (∀ (i : Nat) (t : Option String) (st : PState), ∃ tail,
        (processPage i t st).sections = st.sections ++ tail ∧
        tail.map (·.heading_text) = detect_sections (pageLines t) ∧
        ∀ s ∈ tail, s.page_start = some i ∧ s.page_end = some i) ∧
    (∀ (pdf : Pdf) (k : Nat) (h : k < (runPages 1 pdf.pages initState).sections.length),
        ((runPages 1 pdf.pages initState).sections.get ⟨k, h⟩).order_index = k + 1) := by
  constructor
  · intro i t st
    refine ⟨mkSections i st.order_index (detect_sections (pageLines t)), ?_, ?_, ?_⟩
    · rw [processPage_eq]
    · exact mkSections_map_text _ _ _
    · intro s hs
      exact (mkSections_mem _ _ _ s hs).2
  · intro pdf k h
    have hg := (runPages_goodIdx pdf.pages 1 initState goodIdx_init).2.1
    have hk : k < ((runPages 1 pdf.pages initState).sections.map
        (·.order_index)).length := by simpa using h
    have h2 := List.getElem_of_eq hg hk
    rw [List.getElem_map] at h2
    rw [List.get_eq_getElem, h2, List.getElem_range'_1]
    omega

/-- Witness for C5 at a concrete document: page 2 holds the line
"3.2 Inspection Criteria"; the resulting section sits on page 2 with
`page_start = page_end = 2`, and the first detected section of the scan
has `order_index` 1. -/
theorem C5_section_pages_and_running_count_witness :
    (∃ tail,
        (processPage 2 (some "3.2 Inspection Criteria") initState).sections =
          initState.sections ++ tail ∧
        tail.map (·.heading_text) =
          detect_sections (pageLines (some "3.2 Inspection Criteria")) ∧
        ∀ s ∈ tail, s.page_start = some 2 ∧ s.page_end = some 2) ∧
    ((runPages 1 [some "intro text", some "3.2 Inspection Criteria"]
        initState).sections.get ⟨0, by decide⟩).order_index = 0 + 1 :=
  ⟨C5_section_pages_and_running_count.1 2 (some "3.2 Inspection Criteria") initState,
   C5_section_pages_and_running_count.2
     ⟨[some "intro text", some "3.2 Inspection Criteria"]⟩ 0 (by decide)⟩

/-- Claim C6: the sections' `order_index` values, in output order, are
exactly `1, …, len(sections)`, and the figures' `order_index` values are
independently `1, …, len(figures)`. -/
theorem C6_order_index_ranges (pdf : Pdf) (secs : List ParsedSection)
    (figs : List ParsedFigure)
    (h : parse_pdf (some pdf) = .ok (secs, figs)) :
    secs.map (·.order_index) = List.range' 1 secs.length ∧
      figs.map (·.order_index) = List.range' 1 figs.length :=
  parse_pdf_ranges pdf secs figs h

/-- Witness for C6: a document with 1 section and 3 figures numbers its
figures 1..3 independently of the section count. -/
theorem C6_order_index_ranges_witness :
    ([⟨"1 Intro", "H1", some 1, some 1, 1⟩] : List ParsedSection).map
        (·.order_index) = List.range' 1 1 ∧
    ([⟨some 0, some 1, some "Figure 1 overview", 1⟩,
      ⟨some 0, some 1, some "see Figure 2", 2⟩,
      ⟨some 0, some 1, some "Figure 3 caption", 3⟩] : List ParsedFigure).map
        (·.order_index) = List.range' 1 3 :=
  C6_order_index_ranges
    ⟨[some "1 Intro\nFigure 1 overview\nsee Figure 2\nFigure 3 caption"]⟩
    [⟨"1 Intro", "H1", some 1, some 1, 1⟩]
    [⟨some 0, some 1, some "Figure 1 overview", 1⟩,
     ⟨some 0, some 1, some "see Figure 2", 2⟩,
     ⟨some 0, some 1, some "Figure 3 caption", 3⟩] (by rfl)

/-- Claim C7: an unreadable PDF makes extraction fail before any section
or figure is produced, and the upload aborts with no document, section
or figure rows committed. -/
theorem C7_unreadable_pdf_aborts :
    parse_pdf none = .error () ∧
      ∀ db : Db, upload_document db none = .error () :=
  ⟨rfl, fun _ => rfl⟩

/-- Claim C9: headings of a page are all detected before any of the
page's lines are scanned for figures, so every figure of a page whose
heading list is non-empty points at the last heading of that page, even
when the caption line textually precedes the heading. -/
theorem C9_figures_see_whole_page (i : Nat) (t : Option String) (st : PState)
    (h : detect_sections (pageLines t) ≠ []) :
    ∃ tail, (processPage i t st).figures = st.figures ++ tail ∧
      ∀ f ∈ tail, f.section_index =
        some (st.sections.length + (detect_sections (pageLines t)).length - 1) := by
  refine ⟨mkFigures i (st.sections.length + numHeadings t) st.figures.length
    (pageLines t), ?_, ?_⟩
  · rw [processPage_eq]
  · intro f hf
    have hidx := (mkFigures_mem _ _ _ _ f hf).1
    have hlen : (detect_sections (pageLines t)).length ≠ 0 :=
      fun hz => h (List.length_eq_zero.mp hz)
    rw [hidx]
    simp only [numHeadings]
    rw [if_neg (by omega)]

/-- Witness for C9: on a page whose caption line "See Figure 1" precedes
its only heading "2 Methods", the figure is still associated with that
heading (index 0 of the section list). -/
theorem C9_figures_see_whole_page_witness :
    ∃ tail,
      (processPage 1 (some "See Figure 1\n2 Methods") initState).figures =
        initState.figures ++ tail ∧
      ∀ f ∈ tail, f.section_index =
        some (initState.sections.length +
          (detect_sections (pageLines (some "See Figure 1\n2 Methods"))).length - 1) :=
  C9_figures_see_whole_page 1 (some "See Figure 1\n2 Methods") initState (by decide)

/-- Claim C10: every pending section index of a parsed figure indexes
into the returned section list, so the upload's in-range guard resolves
every association unchanged and never silently drops one. -/
theorem C10_section_index_valid (pdf : Pdf) (secs : List ParsedSection)
    (figs : List ParsedFigure)
    (h : parse_pdf (some pdf) = .ok (secs, figs)) :
    (∀ f ∈ figs, ∀ j, f.section_index = some j → j < secs.length) ∧
      resolve_figures secs figs = figs.map (·.section_index) := by
  have hrun := runPages_figs_inRange pdf.pages 1 initState
    (by intro f hf; cases hf)
  simp only [parse_pdf, Except.ok.injEq, Prod.mk.injEq] at h
  obtain ⟨hsec, hfig⟩ := h
  subst hfig
  have hbound : ∀ f ∈ (runPages 1 pdf.pages initState).figures, ∀ j,
      f.section_index = some j → j < secs.length := by
    intro f hf j hj
    have hb := hrun f hf j hj
    by_cases hempty : (runPages 1 pdf.pages initState).sections.isEmpty = true
    · rw [List.isEmpty_iff_length_eq_zero] at hempty
      omega
    · rw [← hsec]
      simpa [hempty] using hb
  refine ⟨hbound, ?_⟩
  refine List.map_congr_left ?_
  intro f hf
  unfold resolveSectionId
  cases hidx : f.section_index with
  | none => rfl
  | some j => simp [hbound f hf j hidx]

/-- Witness for C10 on a one-section, one-figure document: the pending
index 0 is in range and resolution returns it unchanged. -/
theorem C10_section_index_valid_witness :
    (∀ f ∈ ([⟨some 0, some 1, some "see Figure 4 below", 1⟩] : List ParsedFigure),
        ∀ j, f.section_index = some j →
          j < ([⟨"1 Intro", "H1", some 1, some 1, 1⟩] : List ParsedSection).length) ∧
      resolve_figures [⟨"1 Intro", "H1", some 1, some 1, 1⟩]
          [⟨some 0, some 1, some "see Figure 4 below", 1⟩] =
        ([⟨some 0, some 1, some "see Figure 4 below", 1⟩] : List ParsedFigure).map
          (·.section_index) :=
  C10_section_index_valid ⟨[some "1 Intro\nsee Figure 4 below"]⟩
    [⟨"1 Intro", "H1", some 1, some 1, 1⟩]
    [⟨some 0, some 1, some "see Figure 4 below", 1⟩] (by rfl)

/-! ## The zero-section fallback (claim C3) -/

theorem runPages_noSections :
    ∀ (ts : List (Option String)) (i : Nat) (st : PState),
      (runPages i ts st).sections = [] →
      st.sections = [] ∧
        ∀ f ∈ (runPages i ts st).figures,
          f ∈ st.figures ∨ f.section_index = none := by
  intro ts
  induction ts with
  | nil => intro i st h; exact ⟨h, fun f hf => Or.inl hf⟩
  | cons t ts ih =>
    intro i st h
    rw [runPages_cons] at h ⊢
    obtain ⟨h1, h2⟩ := ih (i + 1) (processPage i t st) h
    rw [processPage_eq] at h1
    have hsec := List.append_eq_nil.mp h1
    refine ⟨hsec.1, ?_⟩
    intro f hf
    rcases h2 f hf with hf' | hf'
    · rw [processPage_eq] at hf'
      simp only [List.mem_append] at hf'
      rcases hf' with hf' | hf'
      · exact Or.inl hf'
      · right
        have hidx := (mkFigures_mem _ _ _ _ f hf').1
        have hh0 : numHeadings t = 0 := by
          have := congrArg List.length hsec.2
          simpa [mkSections_length, numHeadings] using this
        have hlen0 : st.sections.length = 0 := by simp [hsec.1]
        rw [hidx, hlen0, hh0]
        simp
    · exact Or.inr hf'

/-- Claim C3: when the scan of the whole document detects zero headings,
the output is exactly one fallback section titled "Document Overview"
with `page_start = 1`, `page_end` = total page count and
`order_index = 1`; the figures detected during that scan keep no section
reference, and resolution leaves them all unassociated. -/
theorem C3_zero_section_fallback (pdf : Pdf) (secs : List ParsedSection)
    (figs : List ParsedFigure)
    (h : parse_pdf (some pdf) = .ok (secs, figs))
    (hnone : (runPages 1 pdf.pages initState).sections = []) :
    secs = [⟨"Document Overview", "H1", some 1, some pdf.pages.length, 1⟩] ∧
      (∀ f ∈ figs, f.section_index = none) ∧
      resolve_figures secs figs = figs.map (fun _ => none) := by
  simp only [parse_pdf, Except.ok.injEq, Prod.mk.injEq] at h
  obtain ⟨hsec, hfig⟩ := h
  subst hfig
  have hfigs := (runPages_noSections pdf.pages 1 initState hnone).2
  have hallnone : ∀ f ∈ (runPages 1 pdf.pages initState).figures,
      f.section_index = none := by
    intro f hf
    rcases hfigs f hf with h' | h'
    · cases h'
    · exact h'
  refine ⟨?_, hallnone, ?_⟩
  · rw [← hsec]
    simp [hnone, fallbackSection]
  · unfold resolve_figures
    refine List.map_congr_left ?_
    intro f hf
    unfold resolveSectionId
    rw [hallnone f hf]

/-- Witness for C3: a two-page document with no heading-like line gets
the single fallback section spanning pages 1..2 and its one figure stays
unassociated. -/
theorem C3_zero_section_fallback_witness :
    ([⟨"Document Overview", "H1", some 1, some 2, 1⟩] : List ParsedSection) =
        [⟨"Document Overview", "H1", some 1,
          some ([some "hello\nsee Figure 1", some "more text"] :
            List (Option String)).length, 1⟩] ∧
      (∀ f ∈ ([⟨none, some 1, some "see Figure 1", 1⟩] : List ParsedFigure),
          f.section_index = none) ∧
      resolve_figures [⟨"Document Overview", "H1", some 1, some 2, 1⟩]
          [⟨none, some 1, some "see Figure 1", 1⟩] =
        ([⟨none, some 1, some "see Figure 1", 1⟩] : List ParsedFigure).map
          (fun _ => none) :=
  C3_zero_section_fallback ⟨[some "hello\nsee Figure 1", some "more text"]⟩
    [⟨"Document Overview", "H1", some 1, some 2, 1⟩]
    [⟨none, some 1, some "see Figure 1", 1⟩] (by rfl) (by rfl)

/-! ## Blank pages contribute nothing (claim C8) -/

theorem processPage_blank (i : Nat) (b : Option String) (st : PState)
    (h : pageLines b = []) : processPage i b st = st := by
  rw [processPage_eq]
  simp [h, detect_sections, numHeadings, mkSections, mkFigures]

theorem numHeadings_blank (b : Option String) (h : pageLines b = []) :
    numHeadings b = 0 := by
  simp [numHeadings, h, detect_sections]

theorem numFigLines_blank (b : Option String) (h : pageLines b = []) :
    numFigLines b = 0 := by
  simp [numFigLines, h]

/-- Output lengths of `parse_pdf` as per-page sums (with the fallback
when no page has a heading). -/
theorem parse_pdf_lengths (pdf : Pdf) (secs : List ParsedSection)
    (figs : List ParsedFigure)
    (h : parse_pdf (some pdf) = .ok (secs, figs)) :
    secs.length = (if (pdf.pages.map numHeadings).sum = 0 then 1
      else (pdf.pages.map numHeadings).sum) ∧
      figs.length = (pdf.pages.map numFigLines).sum := by
  simp only [parse_pdf, Except.ok.injEq, Prod.mk.injEq] at h
  obtain ⟨hsec, hfig⟩ := h
  have es : (runPages 1 pdf.pages initState).sections.length =
      (pdf.pages.map numHeadings).sum := by
    simpa [initState] using runPages_sections_length pdf.pages 1 initState
  have ef : (runPages 1 pdf.pages initState).figures.length =
      (pdf.pages.map numFigLines).sum := by
    simpa [initState] using runPages_figures_length pdf.pages 1 initState
  constructor
  · by_cases hempty : (runPages 1 pdf.pages initState).sections.isEmpty = true
    · have h0 : (pdf.pages.map numHeadings).sum = 0 := by
        rw [List.isEmpty_iff_length_eq_zero] at hempty
        omega
      rw [← hsec]
      simp [hempty, h0]
    · have h0 : (pdf.pages.map numHeadings).sum ≠ 0 := by
        intro hz
        apply hempty
        rw [List.isEmpty_iff_length_eq_zero]
        omega
      rw [← hsec]
      simp only [hempty, if_false, Bool.false_eq_true, if_neg h0]
      omega
  · rw [← hfig]
    omega

/-- Claim C8: a page whose extracted text has no non-blank line leaves
the scan state untouched; inserting such a page anywhere does not change
either `order_index` sequence of the output; and extraction never fails
on a readable document, whatever its text. -/
theorem C8_blank_pages_inert :
    (∀ (i : Nat) (b : Option String) (st : PState),
        pageLines b = [] → processPage i b st = st) ∧
    (∀ (pre post : List (Option String)) (b : Option String),
        pageLines b = [] →
        ∀ s1 f1 s2 f2,
          parse_pdf (some ⟨pre ++ b :: post⟩) = .ok (s1, f1) →
          parse_pdf (some ⟨pre ++ post⟩) = .ok (s2, f2) →
          s1.map (·.order_index) = s2.map (·.order_index) ∧
            f1.map (·.order_index) = f2.map (·.order_index)) ∧
    (∀ pdf : Pdf, ∃ r, parse_pdf (some pdf) = .ok r) := by
  refine ⟨processPage_blank, ?_, fun pdf => ⟨_, rfl⟩⟩
  intro pre post b hb s1 f1 s2 f2 h1 h2
  have hs1 := parse_pdf_lengths _ _ _ h1
  have hs2 := parse_pdf_lengths _ _ _ h2
  have hsumh : ((pre ++ b :: post).map numHeadings).sum =
      ((pre ++ post).map numHeadings).sum := by
    simp [numHeadings_blank b hb]
  have hsumf : ((pre ++ b :: post).map numFigLines).sum =
      ((pre ++ post).map numFigLines).sum := by
    simp [numFigLines_blank b hb]
  have hlen1 : s1.length = s2.length := by
    rw [hs1.1, hs2.1, hsumh]
  have hlen2 : f1.length = f2.length := by
    rw [hs1.2, hs2.2, hsumf]
  have hr1 := parse_pdf_ranges _ _ _ h1
  have hr2 := parse_pdf_ranges _ _ _ h2
  rw [hr1.1, hr1.2, hr2.1, hr2.2, hlen1, hlen2]
  exact ⟨rfl, rfl⟩

/-- Witness for C8: inserting a whitespace-only page between two pages
changes neither `order_index` sequence, and a concrete blank page is
inert under `processPage`. -/
theorem C8_blank_pages_inert_witness :
    (processPage 7 (some " \n\t \n") initState = initState) ∧
    (([⟨"1 Intro", "H1", some 1, some 1, 1⟩,
       ⟨"2 Methods", "H1", some 3, some 3, 2⟩] : List ParsedSection).map
          (·.order_index) =
        ([⟨"1 Intro", "H1", some 1, some 1, 1⟩,
          ⟨"2 Methods", "H1", some 2, some 2, 2⟩] : List ParsedSection).map
          (·.order_index) ∧
      ([⟨some 0, some 1, some "Figure 1", 1⟩,
        ⟨some 1, some 3, some "Figure 2", 2⟩] : List ParsedFigure).map
          (·.order_index) =
        ([⟨some 0, some 1, some "Figure 1", 1⟩,
          ⟨some 1, some 2, some "Figure 2", 2⟩] : List ParsedFigure).map
          (·.order_index)) :=
  ⟨C8_blank_pages_inert.1 7 (some " \n\t \n") initState (by rfl),
   C8_blank_pages_inert.2.1 [some "1 Intro\nFigure 1"] [some "2 Methods\nFigure 2"]
     (some " \n\t \n") (by rfl) _ _ _ _ (by rfl) (by rfl)⟩

/-! ## Figure-to-section association (claim C4) -/

theorem countLe_append (a b : List ParsedSection) (p : Nat) :
    countLe (a ++ b) p = countLe a p + countLe b p := by
  simp [countLe, List.countP_append]

theorem mkSections_map_page (i oi : Nat) (hs : List String) :
    (mkSections i oi hs).map (fun s => s.page_start.getD 0) =
      List.replicate hs.length i := by
  induction hs generalizing oi with
  | nil => rfl
  | cons h hs ih => simp [mkSections, ih, List.replicate_succ]

theorem countLe_mkSections (i oi p : Nat) (hs : List String) :
    countLe (mkSections i oi hs) p = if i ≤ p then hs.length else 0 := by
  induction hs generalizing oi with
  | nil => simp [countLe, mkSections]
  | cons h hs ih =>
    simp only [mkSections, countLe, List.countP_cons] at ih ⊢
    rw [ih]
    by_cases hip : i ≤ p <;> simp [hip]

theorem countLe_of_all_lt (secs : List ParsedSection) (i : Nat)
    (h : ∀ s ∈ secs, ∃ q, s.page_start = some q ∧ q < i) :
    countLe secs i = secs.length := by
  rw [countLe, List.countP_eq_length]
  intro s hs
  obtain ⟨q, hq, hqi⟩ := h s hs
  simp [hq]
  omega

theorem processPage_pagedOk (i : Nat) (t : Option String) (st : PState)
    (h : PagedOk i st) : PagedOk (i + 1) (processPage i t st) := by
  obtain ⟨h1, h2, h3⟩ := h
  rw [processPage_eq]
  refine ⟨?_, ?_, ?_⟩
  · intro s hs
    simp only [List.mem_append] at hs
    rcases hs with hs | hs
    · obtain ⟨q, hq, hqi⟩ := h1 s hs
      exact ⟨q, hq, by omega⟩
    · obtain ⟨-, hp, -⟩ := mkSections_mem _ _ _ s hs
      exact ⟨i, hp, by omega⟩
  · rw [List.map_append, mkSections_map_page, List.pairwise_append]
    refine ⟨h2, by simp [List.pairwise_replicate], ?_⟩
    intro a ha b hb
    obtain ⟨s, hs, hsa⟩ := List.mem_map.mp ha
    obtain ⟨q, hq, hqi⟩ := h1 s hs
    have hb' := List.eq_of_mem_replicate hb
    subst hsa hb'
    rw [hq]
    simp
    omega
  · intro f hf
    simp only [List.mem_append] at hf
    rcases hf with hf | hf
    · obtain ⟨p, hp, hpi, hidx⟩ := h3 f hf
      refine ⟨p, hp, by omega, ?_⟩
      rw [hidx]
      have hnew : countLe (mkSections i st.order_index
          (detect_sections (pageLines t))) p = 0 := by
        rw [countLe_mkSections, if_neg (by omega)]
      unfold secIdxAt
      rw [countLe_append, hnew]
      simp
    · obtain ⟨hidx, hp⟩ := mkFigures_mem _ _ _ _ f hf
      refine ⟨i, hp, by omega, ?_⟩
      rw [hidx]
      have hnew : countLe (mkSections i st.order_index
          (detect_sections (pageLines t))) i =
          (detect_sections (pageLines t)).length := by
        rw [countLe_mkSections, if_pos (le_refl i)]
      have hold : countLe st.sections i = st.sections.length :=
        countLe_of_all_lt st.sections i h1
      unfold secIdxAt
      rw [countLe_append, hnew, hold]
      simp only [numHeadings]

theorem runPages_pagedOk :
    ∀ (ts : List (Option String)) (i : Nat) (st : PState),
      PagedOk i st → PagedOk (i + ts.length) (runPages i ts st) := by
  intro ts
  induction ts with
  | nil => intro i st h; exact h
  | cons t ts ih =>
    intro i st h
    rw [runPages_cons]
    have := ih (i + 1) (processPage i t st) (processPage_pagedOk i t st h)
    have harith : i + 1 + ts.length = i + (t :: ts).length := by
      simp; omega
    rw [harith] at this
    exact this

/-- Claim C4: the detector's sections appear in nondecreasing page
order, and every detected figure records the page it sits on and points
at the most recently detected section once all pages up to its own have
been scanned (`none` when no section has been detected by then). -/
theorem C4_figure_links_last_section (pdf : Pdf) :
    ((runPages 1 pdf.pages initState).sections.map
        (fun s => s.page_start.getD 0)).Pairwise (· ≤ ·) ∧
    ∀ f ∈ (runPages 1 pdf.pages initState).figures, ∃ p,
      f.page_number = some p ∧
      f.section_index = secIdxAt (runPages 1 pdf.pages initState).sections p := by
  have h := runPages_pagedOk pdf.pages 1 initState
    ⟨fun s hs => absurd hs (by simp [initState]),
     by simp [initState],
     fun f hf => absurd hf (by simp [initState])⟩
  exact ⟨h.2.1, fun f hf => by
    obtain ⟨p, hp, -, hidx⟩ := h.2.2 f hf
    exact ⟨p, hp, hidx⟩⟩

/-- Witness for C4: a figure line scanned after exactly one section has
been detected references that section (the most recent one for its
page). -/
theorem C4_figure_links_last_section_witness :
    ∃ p, (⟨some 0, some 1, some "see Figure 4 below", 1⟩ : ParsedFigure).page_number =
        some p ∧
      (⟨some 0, some 1, some "see Figure 4 below", 1⟩ : ParsedFigure).section_index =
        secIdxAt (runPages 1 [some "1 Intro\nsee Figure 4 below"] initState).sections p :=
  (C4_figure_links_last_section ⟨[some "1 Intro\nsee Figure 4 below"]⟩).2
    ⟨some 0, some 1, some "see Figure 4 below", 1⟩ (by decide)

/-! ## The heading matcher agrees with the spec's pattern (claim C2) -/

theorem takeWhile_eq_self_of_all {p : Char → Bool} :
    ∀ (l : List Char), (∀ c ∈ l, p c = true) → l.takeWhile p = l := by
  intro l
  induction l with
  | nil => intro _; rfl
  | cons c cs ih =>
    intro h
    rw [List.takeWhile_cons, if_pos (h c (List.mem_cons_self c cs))]
    rw [ih fun x hx => h x (List.mem_cons_of_mem c hx)]

theorem dotPlusEnd_of_noNL (cs : List Char) (h1 : cs ≠ [])
    (h2 : ∀ c ∈ cs, ¬(c = '\n')) : dotPlusEnd cs = true := by
  cases cs with
  | nil => exact absurd rfl h1
  | cons c cs' =>
    simp only [dotPlusEnd]
    rw [takeWhile_eq_self_of_all _ (by intro x hx; simpa using h2 x hx)]
    simp [List.drop_length]

theorem ne_nil_of_dotPlusEnd (cs : List Char) (h : dotPlusEnd cs = true) :
    cs ≠ [] := by
  intro he
  subst he
  simp [dotPlusEnd] at h

theorem pyIsSpace_not_digit {c : Char} (h : pyIsSpace c = true) :
    isDigitC c = false := by
  simp only [pyIsSpace, decide_eq_true_eq] at h
  simp only [isDigitC, decide_eq_false_iff_not]
  omega

theorem pyIsSpace_ne_dot {c : Char} (h : pyIsSpace c = true) :
    (c == '.') = false := by
  simp only [pyIsSpace, decide_eq_true_eq] at h
  rw [beq_eq_false_iff_ne]
  intro he
  subst he
  exact absurd h (by decide)

theorem wsOrRest_nil : wsOrRest [] = false := rfl

theorem wsOrRest_cons (c : Char) (rest : List Char) :
    wsOrRest (c :: rest) =
      (dotPlusEnd (c :: rest) || (pyIsSpace c && wsOrRest rest)) := rfl

theorem inDigits_nil : inDigits [] = false := rfl

theorem inDigits_one (c : Char) :
    inDigits [c] =
      (if isDigitC c then inDigits []
       else if c == '.' then false
       else if pyIsSpace c then wsOrRest []
       else false) := rfl

theorem inDigits_two (c d : Char) (rest2 : List Char) :
    inDigits (c :: d :: rest2) =
      (if isDigitC c then inDigits (d :: rest2)
       else if c == '.' then isDigitC d && inDigits rest2
       else if pyIsSpace c then wsOrRest (d :: rest2)
       else false) := rfl

theorem inDigits_one_eq_false (c : Char) : inDigits [c] = false := by
  rw [inDigits_one, inDigits_nil, wsOrRest_nil]
  by_cases h1 : isDigitC c = true
  · simp [h1]
  · by_cases h2 : (c == '.') = true
    · simp [h1, h2]
    · by_cases h3 : pyIsSpace c = true
      · simp [h1, h2, h3]
      · simp [h1, h2, h3]

theorem headingMatch_nil (s : String) (h : s.data = []) :
    headingMatch s = false := by
  unfold headingMatch
  rw [h]

theorem headingMatch_cons (s : String) (c : Char) (rest : List Char)
    (h : s.data = c :: rest) :
    headingMatch s = (isDigitC c && inDigits rest) := by
  unfold headingMatch
  rw [h]

theorem inDigits_cons_digit (c : Char) (tail : List Char)
    (hc : isDigitC c = true) (h : inDigits tail = true) :
    inDigits (c :: tail) = true := by
  cases tail with
  | nil => rw [inDigits_nil] at h; exact absurd h (by simp)
  | cons x xs => rw [inDigits_two, if_pos hc]; exact h

theorem inDigits_cons_space (w : Char) (tail : List Char)
    (hw : pyIsSpace w = true) (h : wsOrRest tail = true) :
    inDigits (w :: tail) = true := by
  have h1 : ¬(isDigitC w = true) := by simp [pyIsSpace_not_digit hw]
  have h2 : ¬((w == '.') = true) := by simp [pyIsSpace_ne_dot hw]
  cases tail with
  | nil => rw [wsOrRest_nil] at h; exact absurd h (by simp)
  | cons x xs => rw [inDigits_two, if_neg h1, if_neg h2, if_pos hw]; exact h

theorem inDigits_cons_dot (d : Char) (rest2 : List Char)
    (hd : isDigitC d = true) (h : inDigits rest2 = true) :
    inDigits ('.' :: d :: rest2) = true := by
  rw [inDigits_two, if_neg (by decide), if_pos (by decide), Bool.and_eq_true]
  exact ⟨hd, h⟩

theorem wsOrRest_sound :
    ∀ (cs : List Char), wsOrRest cs = true →
      ∃ ws rest, cs = ws ++ rest ∧ (∀ c ∈ ws, pyIsSpace c = true) ∧
        rest ≠ [] := by
  intro cs
  induction cs with
  | nil => intro h; rw [wsOrRest_nil] at h; exact absurd h (by simp)
  | cons c r ih =>
    intro h
    rw [wsOrRest_cons, Bool.or_eq_true] at h
    rcases h with h | h
    · exact ⟨[], c :: r, rfl, fun x hx => absurd hx (List.not_mem_nil x),
        ne_nil_of_dotPlusEnd _ h⟩
    · rw [Bool.and_eq_true] at h
      obtain ⟨ws, rest, he, hall, hne⟩ := ih h.2
      refine ⟨c :: ws, rest, by rw [he, List.cons_append], ?_, hne⟩
      intro x hx
      rcases hx with _ | ⟨_, hx⟩
      · exact h.1
      · exact hall x hx

theorem wsOrRest_complete :
    ∀ (ws rest : List Char), (∀ c ∈ ws, pyIsSpace c = true) → rest ≠ [] →
      (∀ c ∈ rest, ¬(c = '\n')) → wsOrRest (ws ++ rest) = true := by
  intro ws
  induction ws with
  | nil =>
    intro rest _ hne hnl
    cases rest with
    | nil => exact absurd rfl hne
    | cons c r =>
      rw [List.nil_append, wsOrRest_cons, Bool.or_eq_true]
      exact Or.inl (dotPlusEnd_of_noNL _ (by simp) hnl)
  | cons w ws' ih =>
    intro rest hall hne hnl
    rw [List.cons_append, wsOrRest_cons, Bool.or_eq_true]
    right
    rw [Bool.and_eq_true]
    exact ⟨hall w (List.mem_cons_self ..),
      ih rest (fun x hx => hall x (List.mem_cons_of_mem w hx)) hne hnl⟩

theorem inDigits_sound_aux :
    ∀ (n : Nat) (cs : List Char), cs.length ≤ n → inDigits cs = true →
      ∃ (d : List Char) (gs : List (List Char)) (ws rest : List Char),
        (∀ c ∈ d, isDigitC c = true) ∧ (∀ g ∈ gs, IsDigitGroup g) ∧
        ws ≠ [] ∧ (∀ c ∈ ws, pyIsSpace c = true) ∧ rest ≠ [] ∧
        cs = d ++ (gs.map (fun g => '.' :: g)).flatten ++ ws ++ rest := by
  intro n
  induction n with
  | zero =>
    intro cs hlen h
    rw [Nat.le_zero, List.length_eq_zero] at hlen
    subst hlen
    rw [inDigits_nil] at h
    exact absurd h (by simp)
  | succ n ih =>
    intro cs hlen h
    cases cs with
    | nil => rw [inDigits_nil] at h; exact absurd h (by simp)
    | cons c rest =>
      cases rest with
      | nil => rw [inDigits_one_eq_false] at h; exact absurd h (by simp)
      | cons d0 rest2 =>
        rw [inDigits_two] at h
        by_cases hd : isDigitC c = true
        · rw [if_pos hd] at h
          obtain ⟨d, gs, ws, r, h1, h2, h3, h4, h5, he⟩ :=
            ih (d0 :: rest2) (by simp at hlen ⊢; omega) h
          refine ⟨c :: d, gs, ws, r, ?_, h2, h3, h4, h5, ?_⟩
          · intro x hx
            rcases hx with _ | ⟨_, hx⟩
            · exact hd
            · exact h1 x hx
          · simp only [List.cons_append]
            rw [← he]
        · rw [if_neg hd] at h
          by_cases hdot : (c == '.') = true
          · rw [if_pos hdot] at h
            rw [Bool.and_eq_true] at h
            obtain ⟨d, gs, ws, r, h1, h2, h3, h4, h5, he⟩ :=
              ih rest2 (by simp at hlen ⊢; omega) h.2
            have hc : c = '.' := by simpa using hdot
            subst hc
            subst he
            refine ⟨[], (d0 :: d) :: gs, ws, r,
              (by intro x hx; cases hx), ?_, h3, h4, h5, ?_⟩
            · intro g hg
              rcases hg with _ | ⟨_, hg⟩
              · refine ⟨by simp, ?_⟩
                intro x hx
                rcases hx with _ | ⟨_, hx⟩
                · exact h.1
                · exact h1 x hx
              · exact h2 g hg
            · simp [List.cons_append, List.append_assoc]
          · rw [if_neg hdot] at h
            by_cases hsp : pyIsSpace c = true
            · rw [if_pos hsp] at h
              obtain ⟨ws, r, he, hall, hne⟩ := wsOrRest_sound (d0 :: rest2) h
              refine ⟨[], [], c :: ws, r, (by intro x hx; cases hx),
                (by intro g hg; cases hg), by simp, ?_, hne, ?_⟩
              · intro x hx
                rcases hx with _ | ⟨_, hx⟩
                · exact hsp
                · exact hall x hx
              · simp only [List.map_nil, List.flatten_nil, List.nil_append,
                  List.cons_append]
                rw [← he]
            · rw [if_neg hsp] at h
              exact absurd h (by simp)

theorem inDigits_complete :
    ∀ (gs : List (List Char)) (d ws rest : List Char),
      (∀ c ∈ d, isDigitC c = true) → (∀ g ∈ gs, IsDigitGroup g) →
      ws ≠ [] → (∀ c ∈ ws, pyIsSpace c = true) → rest ≠ [] →
      (∀ c ∈ rest, ¬(c = '\n')) →
      inDigits (d ++ (gs.map (fun g => '.' :: g)).flatten ++ ws ++ rest) =
        true := by
  intro gs
  induction gs with
  | nil =>
    intro d
    induction d with
    | nil =>
      intro ws rest _ _ hws hwsall hrest hrestnl
      cases ws with
      | nil => exact absurd rfl hws
      | cons w ws' =>
        simp only [List.map_nil, List.flatten_nil, List.nil_append,
          List.cons_append]
        exact inDigits_cons_space w _ (hwsall w (List.mem_cons_self ..))
          (wsOrRest_complete ws' rest
            (fun y hy => hwsall y (List.mem_cons_of_mem w hy)) hrest hrestnl)
    | cons c d' ihd =>
      intro ws rest hdall hgs hws hwsall hrest hrestnl
      simp only [List.cons_append]
      exact inDigits_cons_digit c _ (hdall c (List.mem_cons_self ..))
        (ihd ws rest (fun y hy => hdall y (List.mem_cons_of_mem c hy)) hgs hws
          hwsall hrest hrestnl)
  | cons g gs' ihgs =>
    intro d
    induction d with
    | nil =>
      intro ws rest _ hgs hws hwsall hrest hrestnl
      obtain ⟨hgne, hgdig⟩ := hgs g (List.mem_cons_self ..)
      cases g with
      | nil => exact absurd rfl hgne
      | cons d0 g' =>
        simp only [List.map_cons, List.flatten_cons, List.nil_append,
          List.cons_append]
        exact inDigits_cons_dot d0 _ (hgdig d0 (List.mem_cons_self ..))
          (ihgs g' ws rest (fun x hx => hgdig x (List.mem_cons_of_mem d0 hx))
            (fun h hh => hgs h (List.mem_cons_of_mem (d0 :: g') hh)) hws hwsall hrest
            hrestnl)
    | cons c d' ihd =>
      intro ws rest hdall hgs hws hwsall hrest hrestnl
      simp only [List.cons_append]
      exact inDigits_cons_digit c _ (hdall c (List.mem_cons_self ..))
        (ihd ws rest (fun y hy => hdall y (List.mem_cons_of_mem c hy)) hgs hws
          hwsall hrest hrestnl)

/-- Claim C2: a line is detected as a heading exactly when its full
trimmed content is one or more dot-separated integer groups, then
whitespace, then at least one further character; the detector keeps the
whole trimmed line verbatim as the heading text; and every output
section carries the one constant heading level "H1". -/
theorem C2_heading_rule :
    (∀ s : String, (∀ c ∈ s.data, ¬(c = '\n')) →
        (headingMatch s = true ↔ HeadingSpec s)) ∧
    (∀ lines : List String,
        detect_sections lines =
          (lines.filter (fun l => headingMatch (pyStrip l))).map pyStrip) ∧
    (∀ (pdf : Pdf) (secs : List ParsedSection) (figs : List ParsedFigure),
        parse_pdf (some pdf) = .ok (secs, figs) →
        ∀ s ∈ secs, s.heading_level = "H1") := by
  refine ⟨?_, ?_, ?_⟩
  · intro s hnl
    constructor
    · intro h
      cases hs : s.data with
      | nil =>
        rw [headingMatch_nil s hs] at h
        exact absurd h (by simp)
      | cons c rest =>
        rw [headingMatch_cons s c rest hs, Bool.and_eq_true] at h
        obtain ⟨d, gs, ws, r, h1, h2, h3, h4, h5, he⟩ :=
          inDigits_sound_aux rest.length rest le_rfl h.2
        refine ⟨c :: d, gs, ws, r, ⟨by simp, ?_⟩, h2, h3, h4, h5, ?_⟩
        · intro x hx
          rcases hx with _ | ⟨_, hx⟩
          · exact h.1
          · exact h1 x hx
        · rw [hs, he]
          simp only [List.cons_append]
    · intro ⟨g0, gs, ws, rest, ⟨hg0ne, hg0dig⟩, hgs, hws, hwsall, hrest, he⟩
      cases g0 with
      | nil => exact absurd rfl hg0ne
      | cons c0 g0' =>
        have hsdata : s.data =
            c0 :: (g0' ++ (gs.map (fun g => '.' :: g)).flatten ++ ws ++ rest) := by
          rw [he]
          simp only [List.cons_append]
        rw [headingMatch_cons s c0 _ hsdata, Bool.and_eq_true]
        refine ⟨hg0dig c0 (List.mem_cons_self ..), ?_⟩
        refine inDigits_complete gs g0' ws rest
          (fun x hx => hg0dig x (List.mem_cons_of_mem c0 hx)) hgs hws hwsall
          hrest ?_
        intro x hx
        refine hnl x ?_
        rw [he]
        simp [hx]
  · intro lines
    induction lines with
    | nil => rfl
    | cons l ls ih =>
      by_cases h : headingMatch (pyStrip l) = true <;>
        simp [detect_sections, List.filterMap_cons, List.filter_cons, h, ih] <;>
        simpa [detect_sections] using ih
  · intro pdf secs figs h s hs
    have hrun : ∀ s ∈ (runPages 1 pdf.pages initState).sections,
        s.heading_level = "H1" := by
      have : ∀ (ts : List (Option String)) (i : Nat) (st : PState),
          (∀ s ∈ st.sections, s.heading_level = "H1") →
          ∀ s ∈ (runPages i ts st).sections, s.heading_level = "H1" := by
        intro ts
        induction ts with
        | nil => intro i st hst; exact hst
        | cons t ts ih =>
          intro i st hst
          rw [runPages_cons]
          refine ih (i + 1) (processPage i t st) ?_
          intro s hs
          rw [processPage_eq] at hs
          simp only [List.mem_append] at hs
          rcases hs with hs | hs
          · exact hst s hs
          · exact (mkSections_mem _ _ _ s hs).1
      exact this pdf.pages 1 initState (by intro s hs; cases hs)
    simp only [parse_pdf, Except.ok.injEq, Prod.mk.injEq] at h
    obtain ⟨hsec, -⟩ := h
    rw [← hsec] at hs
    by_cases hempty : (runPages 1 pdf.pages initState).sections.isEmpty = true
    · simp only [hempty, if_true] at hs
      rcases hs with _ | ⟨_, hs⟩
      · rfl
      · cases hs
    · simp only [hempty, if_false, Bool.false_eq_true] at hs
      exact hrun s hs

/-- Witness for C2: the line "3.2 Inspection Criteria" satisfies the
spec's heading pattern, by the equivalence applied to the matcher's
concrete result. -/
theorem C2_heading_rule_witness : HeadingSpec "3.2 Inspection Criteria" :=
  (C2_heading_rule.1 "3.2 Inspection Criteria" (by decide)).mp (by rfl)

/-! ## The figure matcher characterised (claim C1) -/

theorem boundaryAt_succ (cs : List Char) (j : Nat) :
    boundaryAt cs (j + 1) = (wordAt cs j != wordAt cs (j + 1)) := rfl

theorem boundaryAt_eq (cs : List Char) (i : Nat) :
    boundaryAt cs i =
      ((if i = 0 then false else wordAt cs (i - 1)) != wordAt cs i) := by
  cases i with
  | zero => rfl
  | succ j => simp [boundaryAt_succ]

theorem wordAt_eq_true_iff (cs : List Char) (j : Nat) :
    wordAt cs j = true ↔ ∃ c, cs[j]? = some c ∧ isWordChar c = true := by
  unfold wordAt
  cases h : cs[j]? <;> simp [h]

theorem wordAt_eq_false_iff (cs : List Char) (j : Nat) :
    wordAt cs j = false ↔ ∀ c, cs[j]? = some c → isWordChar c = false := by
  unfold wordAt
  cases h : cs[j]? <;> simp [h]

theorem after_not_word (cs : List Char) (j : Nat)
    (hb : boundaryAt cs (j + 1) = true) (hw : wordAt cs j = true) :
    wordAt cs (j + 1) = false := by
  rw [boundaryAt_succ, hw] at hb
  cases h : wordAt cs (j + 1)
  · rfl
  · rw [h] at hb; exact absurd hb (by decide)

theorem after_word (cs : List Char) (j : Nat)
    (hb : boundaryAt cs (j + 1) = true) (hw : wordAt cs j = false) :
    wordAt cs (j + 1) = true := by
  rw [boundaryAt_succ, hw] at hb
  cases h : wordAt cs (j + 1)
  · rw [h] at hb; exact absurd hb (by decide)
  · rfl

theorem boundary_succ_of_tf (cs : List Char) (j : Nat)
    (h1 : wordAt cs j = true) (h2 : wordAt cs (j + 1) = false) :
    boundaryAt cs (j + 1) = true := by
  rw [boundaryAt_succ, h1, h2]
  rfl

theorem boundary_succ_of_ft (cs : List Char) (j : Nat)
    (h1 : wordAt cs j = false) (h2 : wordAt cs (j + 1) = true) :
    boundaryAt cs (j + 1) = true := by
  rw [boundaryAt_succ, h1, h2]
  rfl

theorem isWordChar_of_lowerNat {c : Char} {m : Nat} (h : lowerNat c = m)
    (h1 : 97 ≤ m) (h2 : m ≤ 122) : isWordChar c = true := by
  simp only [lowerNat] at h
  simp only [isWordChar, decide_eq_true_eq]
  split at h <;> omega

theorem not_word_of_lowerNat_dot {c : Char} (h : lowerNat c = 46) :
    isWordChar c = false := by
  simp only [lowerNat] at h
  simp only [isWordChar, decide_eq_false_iff_not]
  split at h <;> omega

theorem ciPrefix_iff (pat : List Char) :
    ∀ (cs : List Char), ciPrefix pat cs = true ↔
      pat.length ≤ cs.length ∧
        (cs.take pat.length).map lowerNat = pat.map lowerNat := by
  induction pat with
  | nil => intro cs; simp [ciPrefix]
  | cons p ps ih =>
    intro cs
    cases cs with
    | nil => simp [ciPrefix]
    | cons c cs' =>
      simp only [ciPrefix, Bool.and_eq_true, beq_iff_eq, ih, List.length_cons,
        List.take_succ_cons, List.map_cons, List.cons.injEq]
      constructor
      · rintro ⟨h1, h2, h3⟩
        exact ⟨by omega, h1, h3⟩
      · rintro ⟨h1, h2, h3⟩
        exact ⟨h2, by omega, h3⟩

theorem map_lower_at (tok : List Char) (L : List Nat) (k v : Nat)
    (h : tok.map lowerNat = L) (hk : L[k]? = some v) :
    ∃ c, tok[k]? = some c ∧ lowerNat c = v := by
  have h2 := congrArg (fun l => l[k]?) h
  simp only [List.getElem?_map] at h2
  rw [hk] at h2
  exact Option.map_eq_some'.mp h2

theorem figMatchAt_le (cs : List Char) (i : Nat)
    (h : figMatchAt cs i = true) : i ≤ cs.length := by
  by_contra hgt
  have hdrop : cs.drop i = [] := List.drop_eq_nil_of_le (by omega)
  simp only [figMatchAt, hdrop] at h
  have h1 : ciPrefix "figure".data [] = false := rfl
  have h2 : ciPrefix "fig.".data [] = false := rfl
  rw [h1, h2] at h
  simp at h

theorem figSearch_eq_true_iff (s : String) :
    figSearch s = true ↔ ∃ i, figMatchAt s.data i = true := by
  unfold figSearch
  rw [List.any_eq_true]
  constructor
  · rintro ⟨i, -, h⟩
    exact ⟨i, h⟩
  · rintro ⟨i, h⟩
    exact ⟨i, List.mem_range.mpr (by have := figMatchAt_le s.data i h; omega), h⟩

theorem getElem?_middle (pre tok post : List Char) (k : Nat)
    (hk : k < tok.length) :
    (pre ++ tok ++ post)[pre.length + k]? = tok[k]? := by
  rw [List.append_assoc, List.getElem?_append_right (by omega),
    Nat.add_sub_cancel_left]
  exact List.getElem?_append_left hk

theorem getElem?_at_end (pre tok post : List Char) :
    (pre ++ tok ++ post)[pre.length + tok.length]? = post[0]? := by
  rw [List.append_assoc, List.getElem?_append_right (by omega),
    Nat.add_sub_cancel_left, List.getElem?_append_right (Nat.le_refl _),
    Nat.sub_self]

theorem before_cond_of_boundary (cs : List Char) (i : Nat) (hi : i ≤ cs.length)
    (hb : boundaryAt cs i = true) (hw : wordAt cs i = true) :
    ∀ c, (cs.take i).getLast? = some c → isWordChar c = false := by
  intro c hc
  rw [boundaryAt_eq, hw] at hb
  have hleft : (if i = 0 then false else wordAt cs (i - 1)) = false := by
    cases hif : (if i = 0 then false else wordAt cs (i - 1))
    · rfl
    · rw [hif] at hb; exact absurd hb (by decide)
  by_cases hi0 : i = 0
  · subst hi0
    simp at hc
  · rw [if_neg hi0] at hleft
    have hpre : (cs.take i).getLast? = cs[i - 1]? := by
      rw [List.getLast?_eq_getElem?, List.length_take]
      have hmin : min i cs.length = i := Nat.min_eq_left hi
      rw [hmin, List.getElem?_take_of_lt (by omega)]
    rw [hpre] at hc
    exact (wordAt_eq_false_iff cs (i - 1)).mp hleft c hc

theorem boundary_of_before_cond (pre X : List Char)
    (hpre : ∀ c, pre.getLast? = some c → isWordChar c = false)
    (hw : wordAt (pre ++ X) pre.length = true) :
    boundaryAt (pre ++ X) pre.length = true := by
  rw [boundaryAt_eq, hw]
  have hleft : (if pre.length = 0 then false
      else wordAt (pre ++ X) (pre.length - 1)) = false := by
    by_cases h0 : pre.length = 0
    · simp [h0]
    · rw [if_neg h0]
      rw [wordAt_eq_false_iff]
      intro c hc
      refine hpre c ?_
      rw [List.getLast?_eq_getElem?,
        ← @List.getElem?_append_left Char pre X (pre.length - 1) (by omega)]
      exact hc
  rw [hleft]
  rfl

theorem figSearch_iff_figSpec (s : String) : figSearch s = true ↔ FigSpec s := by
  rw [figSearch_eq_true_iff]
  constructor
  · rintro ⟨i, h⟩
    have hile : i ≤ s.data.length := figMatchAt_le s.data i h
    simp only [figMatchAt, Bool.and_eq_true, Bool.or_eq_true] at h
    obtain ⟨hb, hbr⟩ := h
    have hlen6 : "figure".data.length = 6 := rfl
    have hlen4 : "fig.".data.length = 4 := rfl
    rcases hbr with ⟨hp, hb2⟩ | ⟨hp, hb2⟩
    · -- whole word "Figure"
      obtain ⟨hle, hmap⟩ := (ciPrefix_iff _ _).mp hp
      rw [hlen6] at hle hmap
      have hsplit : s.data =
          s.data.take i ++ (s.data.drop i).take 6 ++ s.data.drop (i + 6) := by
        rw [← List.drop_drop, List.append_assoc, List.take_append_drop,
          List.take_append_drop]
      have hlenpre : (s.data.take i).length = i := by
        rw [List.length_take]; omega
      have htoklen : ((s.data.drop i).take 6).length = 6 := by
        rw [List.length_take]
        have := List.length_drop i s.data
        omega
      obtain ⟨c0, hc0, hl0⟩ := map_lower_at _ _ 0 102 hmap (by rfl)
      obtain ⟨c5, hc5, hl5⟩ := map_lower_at _ _ 5 101 hmap (by rfl)
      have hcsi : s.data[i]? = some c0 := by
        rw [← Nat.add_zero i, ← List.getElem?_drop,
          ← List.getElem?_take_of_lt (show (0:Nat) < 6 by omega)]
        exact hc0
      have hcs5 : s.data[i + 5]? = some c5 := by
        rw [← List.getElem?_drop,
          ← List.getElem?_take_of_lt (show (5:Nat) < 6 by omega)]
        exact hc5
      have hwi : wordAt s.data i = true :=
        (wordAt_eq_true_iff _ _).mpr
          ⟨c0, hcsi, isWordChar_of_lowerNat hl0 (by omega) (by omega)⟩
      have hw5 : wordAt s.data (i + 5) = true :=
        (wordAt_eq_true_iff _ _).mpr
          ⟨c5, hcs5, isWordChar_of_lowerNat hl5 (by omega) (by omega)⟩
      have h65 : i + 6 = (i + 5) + 1 := by omega
      rw [h65] at hb2
      have hw6 : wordAt s.data ((i + 5) + 1) = false :=
        after_not_word s.data (i + 5) hb2 hw5
      refine ⟨s.data.take i, (s.data.drop i).take 6, s.data.drop (i + 6),
        hsplit, before_cond_of_boundary s.data i hile hb hwi, Or.inl ⟨hmap, ?_⟩⟩
      intro c hc
      refine (wordAt_eq_false_iff s.data ((i + 5) + 1)).mp hw6 c ?_
      rw [← h65, ← Nat.add_zero (i + 6), ← List.getElem?_drop]
      rw [List.head?_eq_getElem?] at hc
      simpa using hc
    · -- token "Fig." followed by a word character
      obtain ⟨hle, hmap⟩ := (ciPrefix_iff _ _).mp hp
      rw [hlen4] at hle hmap
      have hsplit : s.data =
          s.data.take i ++ (s.data.drop i).take 4 ++ s.data.drop (i + 4) := by
        rw [← List.drop_drop, List.append_assoc, List.take_append_drop,
          List.take_append_drop]
      obtain ⟨c0, hc0, hl0⟩ := map_lower_at _ _ 0 102 hmap (by rfl)
      obtain ⟨c3, hc3, hl3⟩ := map_lower_at _ _ 3 46 hmap (by rfl)
      have hcsi : s.data[i]? = some c0 := by
        rw [← Nat.add_zero i, ← List.getElem?_drop,
          ← List.getElem?_take_of_lt (show (0:Nat) < 4 by omega)]
        exact hc0
      have hcs3 : s.data[i + 3]? = some c3 := by
        rw [← List.getElem?_drop,
          ← List.getElem?_take_of_lt (show (3:Nat) < 4 by omega)]
        exact hc3
      have hwi : wordAt s.data i = true :=
        (wordAt_eq_true_iff _ _).mpr
          ⟨c0, hcsi, isWordChar_of_lowerNat hl0 (by omega) (by omega)⟩
      have hw3 : wordAt s.data (i + 3) = false := by
        rw [wordAt_eq_false_iff]
        intro c hc
        rw [hcs3] at hc
        cases hc
        exact not_word_of_lowerNat_dot hl3
      have h43 : i + 4 = (i + 3) + 1 := by omega
      rw [h43] at hb2
      have hw4 : wordAt s.data ((i + 3) + 1) = true :=
        after_word s.data (i + 3) hb2 hw3
      obtain ⟨c4, hc4, hword4⟩ := (wordAt_eq_true_iff _ _).mp hw4
      refine ⟨s.data.take i, (s.data.drop i).take 4, s.data.drop (i + 4),
        hsplit, before_cond_of_boundary s.data i hile hb hwi,
        Or.inr ⟨hmap, c4, ?_, hword4⟩⟩
      rw [List.head?_eq_getElem?, List.getElem?_drop, Nat.add_zero, h43]
      exact hc4
  · rintro ⟨pre, tok, post, hsplit, hprecond, hbr⟩
    refine ⟨pre.length, ?_⟩
    simp only [figMatchAt, Bool.and_eq_true, Bool.or_eq_true]
    rcases hbr with ⟨hmap, hpost⟩ | ⟨hmap, hpost⟩
    · -- whole word "Figure"
      have htoklen : tok.length = 6 := by
        have h2 := congrArg List.length hmap
        simp only [List.length_map] at h2
        exact h2
      obtain ⟨c0, hc0, hl0⟩ := map_lower_at _ _ 0 102 hmap (by rfl)
      obtain ⟨c5, hc5, hl5⟩ := map_lower_at _ _ 5 101 hmap (by rfl)
      have hwi : wordAt s.data pre.length = true := by
        rw [wordAt_eq_true_iff]
        refine ⟨c0, ?_, isWordChar_of_lowerNat hl0 (by omega) (by omega)⟩
        rw [hsplit, ← Nat.add_zero pre.length, getElem?_middle _ _ _ 0 (by omega)]
        exact hc0
      have hw5 : wordAt s.data (pre.length + 5) = true := by
        rw [wordAt_eq_true_iff]
        refine ⟨c5, ?_, isWordChar_of_lowerNat hl5 (by omega) (by omega)⟩
        rw [hsplit, getElem?_middle _ _ _ 5 (by omega)]
        exact hc5
      have hw6 : wordAt s.data (pre.length + 6) = false := by
        rw [wordAt_eq_false_iff]
        intro c hc
        refine hpost c ?_
        rw [hsplit, ← htoklen, getElem?_at_end, ← List.head?_eq_getElem?] at hc
        exact hc
      refine ⟨?_, Or.inl ⟨?_, ?_⟩⟩
      · rw [hsplit, List.append_assoc]
        refine boundary_of_before_cond pre (tok ++ post) hprecond ?_
        rw [← List.append_assoc, ← hsplit]
        exact hwi
      · rw [ciPrefix_iff, hsplit, List.append_assoc, List.drop_left]
        have hfl : "figure".data.length = 6 := rfl
        constructor
        · rw [hfl, List.length_append]
          omega
        · rw [hfl, ← htoklen, List.take_left]
          exact hmap
      · have h65 : pre.length + 6 = (pre.length + 5) + 1 := by omega
        rw [h65]
        refine boundary_succ_of_tf s.data (pre.length + 5) hw5 ?_
        rw [← h65]
        exact hw6
    · -- token "Fig." followed by a word character
      have htoklen : tok.length = 4 := by
        have h2 := congrArg List.length hmap
        simp only [List.length_map] at h2
        exact h2
      obtain ⟨c0, hc0, hl0⟩ := map_lower_at _ _ 0 102 hmap (by rfl)
      obtain ⟨c3, hc3, hl3⟩ := map_lower_at _ _ 3 46 hmap (by rfl)
      obtain ⟨c4, hc4, hword4⟩ := hpost
      have hwi : wordAt s.data pre.length = true := by
        rw [wordAt_eq_true_iff]
        refine ⟨c0, ?_, isWordChar_of_lowerNat hl0 (by omega) (by omega)⟩
        rw [hsplit, ← Nat.add_zero pre.length, getElem?_middle _ _ _ 0 (by omega)]
        exact hc0
      have hw3 : wordAt s.data (pre.length + 3) = false := by
        rw [wordAt_eq_false_iff]
        intro c hc
        rw [hsplit, getElem?_middle _ _ _ 3 (by omega), hc3] at hc
        cases hc
        exact not_word_of_lowerNat_dot hl3
      have hw4 : wordAt s.data (pre.length + 4) = true := by
        rw [wordAt_eq_true_iff]
        refine ⟨c4, ?_, hword4⟩
        rw [hsplit, ← htoklen, getElem?_at_end, ← List.head?_eq_getElem?]
        exact hc4
      refine ⟨?_, Or.inr ⟨?_, ?_⟩⟩
      · rw [hsplit, List.append_assoc]
        refine boundary_of_before_cond pre (tok ++ post) hprecond ?_
        rw [← List.append_assoc, ← hsplit]
        exact hwi
      · rw [ciPrefix_iff, hsplit, List.append_assoc, List.drop_left]
        have hfl : "fig.".data.length = 4 := rfl
        constructor
        · rw [hfl, List.length_append]
          omega
        · rw [hfl, ← htoklen, List.take_left]
          exact hmap
      · have h43 : pre.length + 4 = (pre.length + 3) + 1 := by omega
        rw [h43]
        refine boundary_succ_of_ft s.data (pre.length + 3) hw3 ?_
        rw [← h43]
        exact hw4

/-- Claim C1 counterexample: the claim asserts that the line
"see fig. 4" is classified as a figure caption; the code's regex
`\b(Figure|Fig\.)\b` rejects it, because after `Fig\.` the trailing
word boundary demands a word character immediately after the period,
and here a space follows. -/
theorem C1_figure_rule_counterexample : figSearch "see fig. 4" = false := by
  rfl

/-- Claim C1 (amended): a line is classified as a figure caption iff it
contains, at a position not preceded by a word character, either the
whole word "Figure" (case-insensitively, not followed by a word
character) or the token "Fig." (case-insensitively) whose period is
immediately followed by a word character. Case-insensitivity holds —
"fig.4" and "FIGURE 2" match — but "see fig. 4" does not, since a space
follows the period. -/
theorem C1_figure_rule_amended :
    (∀ s : String, figSearch s = true ↔ FigSpec s) ∧
      figSearch "fig.4" = true ∧
      figSearch "FIGURE 2" = true ∧
      figSearch "see fig. 4" = false :=
  ⟨figSearch_iff_figSpec, by rfl, by rfl, by rfl⟩

end Ndt
